import Mathlib

/-! Shallow embedding of the order-book reconstruction engine
(`OrderBookReconstructor` and its module-level helpers) of the
sdk-typescript repository, with proofs of the specification claims.

Modelling conventions:
* JavaScript numbers are modelled as `Option ℚ`: `some q` is the finite
  number `q`, `none` models a non-finite value (`NaN`).  The engine only
  produces non-finite numbers through `parseFloat` on malformed input.
* `parseFloat` is modelled for decimal numerals (optional sign, integer
  part, optional fractional part, longest-prefix semantics); any input
  with no leading numeral yields `none`, matching `parseFloat`
  returning `NaN`.  Exponent forms and `Infinity` are outside the
  inputs used by the claims and are mapped to `none` as well.
* A JavaScript `Map` keyed by numbers (insertion ordered, SameValueZero
  key equality, under which `NaN` is a valid single key) is modelled as
  an association list kept in insertion order with unique keys.
* `Array.prototype.sort` (stable, per ES2019) with a numeric comparator
  `c` is modelled as a stable insertion sort for the relation
  `le a b ↔ c a b ≤ 0`; a comparator result of `NaN` (possible only
  when a `NaN` price is resident) is treated as a tie, one fixed choice
  within the behaviour the ECMAScript specification leaves open.
* `Number.prototype.toString` is injective on numbers and is applied
  uniformly to every rendered field, so rendered levels and metrics
  keep their numeric values instead of decimal strings.
* `new Date(ms).toISOString()` is an injective canonical rendering of a
  millisecond timestamp; it is modelled by the decimal rendering of the
  integer, an executable injective stand-in for the external
  `Date` library.
-/

namespace OBR

/-- A JavaScript number as used by the engine: `some q` is a finite
value, `none` is `NaN`. -/
abbrev JsNum := Option ℚ

/-- Numeric value of a decimal digit. -/
def digitVal (c : Char) : ℕ := c.toNat - Char.toNat '0'

/-- Split a character list into its leading run of decimal digits and
the remainder. -/
def takeDigits : List Char → List Char × List Char
  | [] => ([], [])
  | c :: cs =>
      if c.isDigit then
        let r := takeDigits cs
        (c :: r.1, r.2)
      else ([], c :: cs)

/-- Value of a digit string read in base 10. -/
def natOfDigits (ds : List Char) : ℕ :=
  ds.foldl (fun acc c => 10 * acc + digitVal c) 0

/-- Parse an unsigned decimal numeral prefix: digits, optionally
followed by a point and further digits.  `none` when no digit is
present at all. -/
def parseUnsigned (cs : List Char) : Option ℚ :=
  let ip := takeDigits cs
  match ip.2 with
  | '.' :: rest =>
      let fp := takeDigits rest
      if ip.1.isEmpty && fp.1.isEmpty then none
      else some ((natOfDigits ip.1 : ℚ) + (natOfDigits fp.1 : ℚ) / (10 : ℚ) ^ fp.1.length)
  | _ => if ip.1.isEmpty then none else some ((natOfDigits ip.1 : ℚ))

/-- Model of JavaScript `parseFloat`: optional sign, then the longest
decimal-numeral prefix; `none` (`NaN`) when no numeral is present. -/
def parseFloat (s : String) : JsNum :=
  match s.toList with
  | '-' :: cs => (parseUnsigned cs).map (fun q => -q)
  | '+' :: cs => parseUnsigned cs
  | cs => parseUnsigned cs

/-- Internal per-price level (`InternalLevel` in the source). -/
structure InternalLevel where
  price : JsNum
  size : JsNum
  orders : ℤ
  deriving DecidableEq, Repr

/-- Checkpoint wire level (`PriceLevel` in the source): textual price
and size, integral order count. -/
structure PriceLevel where
  px : String
  sz : String
  n : ℤ
  deriving DecidableEq, Repr

/-- The fields of the wire `OrderBook` type read by the engine when it
is used as a checkpoint. -/
structure OrderBook where
  coin : String
  timestamp : String
  bids : List PriceLevel
  asks : List PriceLevel
  deriving DecidableEq, Repr

/-- Book side of a delta. -/
inductive Side
  | bid
  | ask
  deriving DecidableEq, Repr

/-- Incremental update (`OrderbookDelta` in the source): numeric price
and size, sequence number and millisecond timestamp. -/
structure OrderbookDelta where
  side : Side
  price : ℚ
  size : ℚ
  sequence : ℤ
  timestamp : ℤ
  deriving DecidableEq, Repr

/-- JavaScript `Map` from price to level, in insertion order. -/
abbrev LevelMap := List (JsNum × InternalLevel)

/-- `Map.prototype.has`. -/
def mapHasKey (m : LevelMap) (k : JsNum) : Bool :=
  m.any (fun p => decide (p.1 = k))

/-- `Map.prototype.set`: overwrite in place when the key is resident,
otherwise append at the end (insertion order). -/
def mapSet (m : LevelMap) (k : JsNum) (v : InternalLevel) : LevelMap :=
  if mapHasKey m k then m.map (fun p => if p.1 = k then (k, v) else p)
  else m ++ [(k, v)]

/-- `Map.prototype.delete`. -/
def mapDelete (m : LevelMap) (k : JsNum) : LevelMap :=
  m.filter (fun p => decide (p.1 ≠ k))

/-- `Map.prototype.values` in insertion order. -/
def mapValues (m : LevelMap) : List InternalLevel := m.map Prod.snd

/-- `Map.prototype.get`. -/
def mapLookup (m : LevelMap) (k : JsNum) : Option InternalLevel :=
  (m.find? (fun p => decide (p.1 = k))).map Prod.snd

/-- The mutable fields of an `OrderBookReconstructor` instance. -/
structure BookState where
  bids : LevelMap
  asks : LevelMap
  coin : String
  lastTimestamp : String
  lastSequence : ℤ
  deriving DecidableEq, Repr

/-- Model of `new Date(ms).toISOString()`: an injective canonical
rendering of the millisecond timestamp (decimal rendering stands in
for the external `Date` formatting). -/
def toISOString (ms : ℤ) : String := toString ms

/-- Parse one checkpoint level into its internal form. -/
def mkLevel (l : PriceLevel) : InternalLevel :=
  { price := parseFloat l.px, size := parseFloat l.sz, orders := l.n }

/-- Load one checkpoint side into an empty map, keyed by parsed price. -/
def loadSide (ls : List PriceLevel) : LevelMap :=
  ls.foldl (fun m l => mapSet m (parseFloat l.px) (mkLevel l)) []

/-- `initialize(checkpoint)`: both side maps are cleared and refilled
from the checkpoint, `coin` and `lastTimestamp` are taken from the
checkpoint and `lastSequence` is reset to 0, so the resulting state is
a function of the checkpoint alone. -/
def initState (cp : OrderBook) : BookState :=
  { bids := loadSide cp.bids
    asks := loadSide cp.asks
    coin := cp.coin
    lastTimestamp := cp.timestamp
    lastSequence := 0 }

/-- `initialize` as an action on an existing instance state: the prior
state is discarded entirely (`clear()` on both maps, every scalar field
overwritten). -/
def initStateFrom (_st : BookState) (cp : OrderBook) : BookState := initState cp

/-- `applyDelta(delta)`: size 0 removes the price from the selected
side, a non-zero size upserts the level with order count 1; the
timestamp and sequence fields are updated unconditionally. -/
def applyDelta (st : BookState) (d : OrderbookDelta) : BookState :=
  let upd : LevelMap → LevelMap := fun book =>
    if d.size = 0 then mapDelete book (some d.price)
    else mapSet book (some d.price)
      { price := some d.price, size := some d.size, orders := 1 }
  match d.side with
  | Side.bid =>
      { st with
          bids := upd st.bids
          lastTimestamp := toISOString d.timestamp
          lastSequence := d.sequence }
  | Side.ask =>
      { st with
          asks := upd st.asks
          lastTimestamp := toISOString d.timestamp
          lastSequence := d.sequence }

/-- Stable insertion into a sorted list: the new element goes before
the first element it relates to by `le`. -/
def insertOrd (le : α → α → Bool) (x : α) : List α → List α
  | [] => [x]
  | y :: ys => if le x y then x :: y :: ys else y :: insertOrd le x ys

/-- Stable sort modelling `Array.prototype.sort` with a comparator `c`,
for `le a b ↔ c a b ≤ 0`. -/
def jsSort (le : α → α → Bool) : List α → List α
  | [] => []
  | x :: xs => insertOrd le x (jsSort le xs)

/-- Bid comparator `(a, b) => b.price - a.price` as a relation:
`a` may stay before `b` when the comparator is not positive, i.e. when
`b.price ≤ a.price`; a `NaN` on either side makes the comparator `NaN`,
treated as a tie. -/
def bidLe (a b : InternalLevel) : Bool :=
  match a.price, b.price with
  | some x, some y => decide (y ≤ x)
  | _, _ => true

/-- Ask comparator `(a, b) => a.price - b.price` as a relation. -/
def askLe (a b : InternalLevel) : Bool :=
  match a.price, b.price with
  | some x, some y => decide (x ≤ y)
  | _, _ => true

/-- Delta comparator `(a, b) => a.sequence - b.sequence` as a
relation. -/
def seqLe (a b : OrderbookDelta) : Bool :=
  decide (a.sequence ≤ b.sequence)

/-- `[...deltas].sort((a, b) => a.sequence - b.sequence)`. -/
def sortDeltas (ds : List OrderbookDelta) : List OrderbookDelta :=
  jsSort seqLe ds

/-- Bid side values sorted best (highest price) first. -/
def sortBids (m : LevelMap) : List InternalLevel :=
  jsSort bidLe (mapValues m)

/-- Ask side values sorted best (lowest price) first. -/
def sortAsks (m : LevelMap) : List InternalLevel :=
  jsSort askLe (mapValues m)

/-- Rendered level (`PriceLevel` output): the source stringifies the
numeric values; the model keeps the numbers themselves. -/
structure OutLevel where
  px : JsNum
  sz : JsNum
  n : ℤ
  deriving DecidableEq, Repr

/-- `toLevel` of the source (modulo the injective stringification). -/
def toLevel (l : InternalLevel) : OutLevel :=
  { px := l.price, sz := l.size, n := l.orders }

/-- Rendered snapshot (`ReconstructedOrderBook`): `none` in a metric
field models the absent (`undefined`) field. -/
structure Snapshot where
  coin : String
  timestamp : String
  bids : List OutLevel
  asks : List OutLevel
  midPrice : Option ℚ
  spread : Option ℚ
  spreadBps : Option ℚ
  sequence : ℤ
  deriving DecidableEq, Repr

/-- `toFixed(2)` on the exact rational value: round to the nearest
hundredth (`round` is round-half-up, matching `toFixed` up to
double-precision artifacts that the claims do not exercise). -/
def toFixed2 (q : ℚ) : ℚ := ((round (q * 100) : ℤ) : ℚ) / 100

/-- `depth ? xs.slice(0, depth) : xs`: a depth of 0 is falsy in
JavaScript, so it performs no truncation. -/
def applyDepth (depth : Option ℕ) (ls : List α) : List α :=
  match depth with
  | some d => if d = 0 then ls else ls.take d
  | none => ls

/-- First element's price of a sorted side (`sorted[0]?.price`):
`none` when the side is empty. -/
def bestOf (ls : List InternalLevel) : Option JsNum :=
  ls.head?.map InternalLevel.price

/-- `bestBid && bestAsk ? (bestBid + bestAsk) / 2 : undefined`: the
truthiness test fails when either operand is `undefined` (empty side),
`NaN`, or the number 0. -/
def midOf (bestBid bestAsk : Option JsNum) : Option ℚ :=
  match bestBid, bestAsk with
  | some (some bb), some (some ba) =>
      if bb = 0 ∨ ba = 0 then none else some ((bb + ba) / 2)
  | _, _ => none

/-- `bestBid && bestAsk ? bestAsk - bestBid : undefined`. -/
def spreadOf (bestBid bestAsk : Option JsNum) : Option ℚ :=
  match bestBid, bestAsk with
  | some (some bb), some (some ba) =>
      if bb = 0 ∨ ba = 0 then none else some (ba - bb)
  | _, _ => none

/-- `midPrice && spread ? (spread / midPrice) * 10000 : undefined`,
rendered through `toFixed(2)`. -/
def spreadBpsOf (midPrice spread : Option ℚ) : Option ℚ :=
  match midPrice, spread with
  | some m, some s =>
      if m = 0 ∨ s = 0 then none else some (toFixed2 (s / m * 10000))
  | _, _ => none

/-- `getSnapshot(depth?)`: sort both sides, apply the depth limit to
the rendered levels, and derive the metrics from the unsliced sorted
lists. -/
def getSnapshot (st : BookState) (depth : Option ℕ) : Snapshot :=
  let sortedBids := sortBids st.bids
  let sortedAsks := sortAsks st.asks
  let bestBid := bestOf sortedBids
  let bestAsk := bestOf sortedAsks
  let midPrice : Option ℚ := midOf bestBid bestAsk
  let spread : Option ℚ := spreadOf bestBid bestAsk
  let spreadBps : Option ℚ := spreadBpsOf midPrice spread
  { coin := st.coin
    timestamp := st.lastTimestamp
    bids := (applyDepth depth sortedBids).map toLevel
    asks := (applyDepth depth sortedAsks).map toLevel
    midPrice := midPrice
    spread := spread
    spreadBps := spreadBps
    sequence := st.lastSequence }

/-- The delta loop shared by the reconstruction drivers: apply each
delta in order, collecting a snapshot after each one when `emitAll`. -/
def replaySorted (depth : Option ℕ) (emitAll : Bool) :
    BookState → List OrderbookDelta → List Snapshot × BookState
  | st, [] => ([], st)
  | st, d :: ds =>
      let st2 := applyDelta st d
      let rest := replaySorted depth emitAll st2 ds
      ((if emitAll then [getSnapshot st2 depth] else []) ++ rest.1, rest.2)

/-- `reconstructAll(checkpoint, deltas, {depth, emitAll})`, threading
the instance state. -/
def reconstructAll (st0 : BookState) (cp : OrderBook) (ds : List OrderbookDelta)
    (depth : Option ℕ) (emitAll : Bool) : List Snapshot × BookState :=
  let st := initStateFrom st0 cp
  let run := replaySorted depth emitAll st (sortDeltas ds)
  ((if emitAll then [getSnapshot st depth] else []) ++ run.1 ++
      (if emitAll then [] else [getSnapshot run.2 depth]),
    run.2)

/-- `iterate(checkpoint, deltas, {depth})`: the full finite sequence
of snapshots the generator yields, together with the final instance
state. -/
def iterateSnaps (st0 : BookState) (cp : OrderBook) (ds : List OrderbookDelta)
    (depth : Option ℕ) : List Snapshot × BookState :=
  let st := initStateFrom st0 cp
  let run := replaySorted depth true st (sortDeltas ds)
  (getSnapshot st depth :: run.1, run.2)

/-- `reconstructFinal(checkpoint, deltas, depth)`. -/
def reconstructFinal (st0 : BookState) (cp : OrderBook) (ds : List OrderbookDelta)
    (depth : Option ℕ) : Snapshot × BookState :=
  let st := initStateFrom st0 cp
  let stF := (sortDeltas ds).foldl applyDelta st
  (getSnapshot stF depth, stF)

/-- Adjacent-pair gap scan over an already sorted delta list. -/
def gapsOf : List OrderbookDelta → List (ℤ × ℤ)
  | a :: b :: rest =>
      (if b.sequence = a.sequence + 1 then [] else [(a.sequence + 1, b.sequence)]) ++
        gapsOf (b :: rest)
  | _ => []

/-- `OrderBookReconstructor.detectGaps(deltas)`. -/
def detectGaps (ds : List OrderbookDelta) : List (ℤ × ℤ) :=
  if ds.length < 2 then [] else gapsOf (sortDeltas ds)

/-! Generic facts about the stable sort. -/

theorem insertOrd_perm (le : α → α → Bool) (x : α) (l : List α) :
    List.Perm (insertOrd le x l) (x :: l) := by
  induction l with
  | nil => simp [insertOrd]
  | cons y ys ih =>
      simp only [insertOrd]
      split
      · exact List.Perm.refl _
      · exact (ih.cons y).trans (List.Perm.swap x y ys)

theorem jsSort_perm (le : α → α → Bool) (l : List α) :
    List.Perm (jsSort le l) l := by
  induction l with
  | nil => simp [jsSort]
  | cons x xs ih =>
      simp only [jsSort]
      exact (insertOrd_perm le x (jsSort le xs)).trans (ih.cons x)

theorem length_jsSort (le : α → α → Bool) (l : List α) :
    (jsSort le l).length = l.length :=
  (jsSort_perm le l).length_eq

theorem mem_jsSort {le : α → α → Bool} {l : List α} {a : α} :
    a ∈ jsSort le l ↔ a ∈ l :=
  (jsSort_perm le l).mem_iff

theorem pairwise_insertOrd (le : α → α → Bool) (x : α) (l : List α)
    (total : ∀ b ∈ l, le x b = true ∨ le b x = true)
    (htrans : ∀ b ∈ l, ∀ c ∈ l, le x b = true → le b c = true → le x c = true)
    (hl : l.Pairwise (fun a b => le a b = true)) :
    (insertOrd le x l).Pairwise (fun a b => le a b = true) := by
  induction l with
  | nil => simp [insertOrd]
  | cons y ys ih =>
      rw [List.pairwise_cons] at hl
      obtain ⟨hy, hys⟩ := hl
      simp only [insertOrd]
      split
      next hxy =>
        refine List.pairwise_cons.mpr ⟨?_, List.pairwise_cons.mpr ⟨hy, hys⟩⟩
        intro b hb
        rcases List.mem_cons.mp hb with rfl | hb
        · exact hxy
        · exact htrans y (List.mem_cons_self y ys) b (List.mem_cons_of_mem y hb)
            hxy (hy b hb)
      next hxy =>
        have hyx : le y x = true := by
          rcases total y (List.mem_cons_self y ys) with h | h
          · exact absurd h hxy
          · exact h
        refine List.pairwise_cons.mpr ⟨?_, ?_⟩
        · intro b hb
          rcases List.mem_cons.mp ((insertOrd_perm le x ys).mem_iff.mp hb) with rfl | hb
          · exact hyx
          · exact hy b hb
        · refine ih (fun b hb => total b (List.mem_cons_of_mem y hb))
            (fun b hb c hc => htrans b (List.mem_cons_of_mem y hb)
              c (List.mem_cons_of_mem y hc)) hys

theorem pairwise_jsSort (le : α → α → Bool) (l : List α)
    (total : ∀ a ∈ l, ∀ b ∈ l, le a b = true ∨ le b a = true)
    (htrans : ∀ a ∈ l, ∀ b ∈ l, ∀ c ∈ l,
        le a b = true → le b c = true → le a c = true) :
    (jsSort le l).Pairwise (fun a b => le a b = true) := by
  induction l with
  | nil => simp [jsSort]
  | cons x xs ih =>
      simp only [jsSort]
      have hmem : ∀ b ∈ jsSort le xs, b ∈ x :: xs := fun b hb =>
        List.mem_cons_of_mem x (mem_jsSort.mp hb)
      refine pairwise_insertOrd le x (jsSort le xs) ?_ ?_ ?_
      · exact fun b hb => total x (List.mem_cons_self x xs) b (hmem b hb)
      · exact fun b hb c hc =>
          htrans x (List.mem_cons_self x xs) b (hmem b hb) c (hmem c hc)
      · exact ih
          (fun a ha b hb =>
            total a (List.mem_cons_of_mem x ha) b (List.mem_cons_of_mem x hb))
          (fun a ha b hb c hc =>
            htrans a (List.mem_cons_of_mem x ha) b (List.mem_cons_of_mem x hb)
              c (List.mem_cons_of_mem x hc))

theorem pairwise_strict_of_nodup_map {R S : α → α → Prop} {f : α → β}
    {l : List α} (h1 : l.Pairwise R) (h2 : (l.map f).Nodup)
    (himp : ∀ a b, R a b → f a ≠ f b → S a b) : l.Pairwise S := by
  have h2p : l.Pairwise (fun a b => f a ≠ f b) := List.pairwise_map.mp h2
  exact (h1.and h2p).imp (fun h => himp _ _ h.1 h.2)

/-! Facts about the map model. -/

theorem mapHasKey_iff {m : LevelMap} {k : JsNum} :
    mapHasKey m k = true ↔ k ∈ m.map Prod.fst := by
  simp [mapHasKey, List.any_eq_true, List.mem_map]

theorem keys_mapSet_of_hasKey {m : LevelMap} {k : JsNum} (v : InternalLevel)
    (h : mapHasKey m k = true) :
    (mapSet m k v).map Prod.fst = m.map Prod.fst := by
  simp only [mapSet, h, if_true]
  rw [List.map_map]
  refine List.map_congr_left ?_
  intro p _
  by_cases hp : p.1 = k
  · simp [hp]
  · simp [hp]

theorem keys_mapSet_of_not_hasKey {m : LevelMap} {k : JsNum} (v : InternalLevel)
    (h : mapHasKey m k = false) :
    (mapSet m k v).map Prod.fst = m.map Prod.fst ++ [k] := by
  simp [mapSet, h]

theorem keysNodup_mapSet {m : LevelMap} {k : JsNum} (v : InternalLevel)
    (h : (m.map Prod.fst).Nodup) : ((mapSet m k v).map Prod.fst).Nodup := by
  cases hk : mapHasKey m k with
  | true => rw [keys_mapSet_of_hasKey v hk]; exact h
  | false =>
      rw [keys_mapSet_of_not_hasKey v hk]
      have hnot : k ∉ m.map Prod.fst := fun hmem =>
        by simp [mapHasKey_iff.mpr hmem] at hk
      simp [List.nodup_append, h, hnot]

theorem keysNodup_mapDelete {m : LevelMap} (k : JsNum)
    (h : (m.map Prod.fst).Nodup) : ((mapDelete m k).map Prod.fst).Nodup := by
  have : (mapDelete m k).Sublist m := List.filter_sublist m
  exact (this.map Prod.fst).nodup h

theorem mem_mapSet {m : LevelMap} {k : JsNum} {v : InternalLevel}
    {p : JsNum × InternalLevel} (hp : p ∈ mapSet m k v) : p ∈ m ∨ p = (k, v) := by
  simp only [mapSet] at hp
  split at hp
  · rcases List.mem_map.mp hp with ⟨q, hq, hqe⟩
    by_cases h : q.1 = k
    · right; simp [h] at hqe; exact hqe.symm
    · left; simp [h] at hqe; exact hqe ▸ hq
  · rcases List.mem_append.mp hp with h | h
    · exact Or.inl h
    · exact Or.inr (List.mem_singleton.mp h)

theorem mem_mapDelete {m : LevelMap} {k : JsNum} {p : JsNum × InternalLevel}
    (hp : p ∈ mapDelete m k) : p ∈ m :=
  (List.filter_sublist m).mem hp

theorem mapDelete_of_not_hasKey {m : LevelMap} {k : JsNum}
    (h : mapHasKey m k = false) : mapDelete m k = m := by
  refine List.filter_eq_self.mpr ?_
  intro p hp
  have hne : p.1 ≠ k := by
    intro he
    have : mapHasKey m k = true := mapHasKey_iff.mpr (he ▸ List.mem_map_of_mem Prod.fst hp)
    simp [this] at h
  simp [hne]

theorem mapLookup_mapSet_self (m : LevelMap) (k : JsNum) (v : InternalLevel) :
    mapLookup (mapSet m k v) k = some v := by
  cases hk : mapHasKey m k with
  | true =>
      have hkm : k ∈ m.map Prod.fst := mapHasKey_iff.mp hk
      rcases List.mem_map.mp hkm with ⟨p0, hp0, hp0k⟩
      simp only [mapSet, hk, if_true, mapLookup, List.find?_map]
      have hfind :
          (m.find? ((fun p : JsNum × InternalLevel => decide (p.1 = k)) ∘
            (fun p => if p.1 = k then (k, v) else p))) =
          m.find? (fun p => decide (p.1 = k)) := by
        congr 1
        funext p
        by_cases hp : p.1 = k
        · simp [hp]
        · simp [hp]
      rw [hfind]
      have hsome : (m.find? (fun p => decide (p.1 = k))).isSome := by
        rw [List.find?_isSome]
        exact ⟨p0, hp0, by simp [hp0k]⟩
      rcases Option.isSome_iff_exists.mp hsome with ⟨a, ha⟩
      have hak := List.find?_some ha
      simp only [decide_eq_true_eq] at hak
      simp [ha, hak]
  | false =>
      have hnone : m.find? (fun p => decide (p.1 = k)) = none := by
        rw [List.find?_eq_none]
        intro p hp hpk
        have hm : mapHasKey m k = true :=
          mapHasKey_iff.mpr (List.mem_map.mpr ⟨p, hp, of_decide_eq_true hpk⟩)
        simp [hm] at hk
      simp [mapSet, hk, mapLookup, List.find?_append, hnone]

theorem mapLookup_mapSet_ne (m : LevelMap) (k : JsNum) (v : InternalLevel)
    {j : JsNum} (hj : j ≠ k) : mapLookup (mapSet m k v) j = mapLookup m j := by
  cases hk : mapHasKey m k with
  | true =>
      simp only [mapSet, hk, if_true, mapLookup, List.find?_map]
      have hfind :
          (m.find? ((fun p : JsNum × InternalLevel => decide (p.1 = j)) ∘
            (fun p => if p.1 = k then (k, v) else p))) =
          m.find? (fun p => decide (p.1 = j)) := by
        congr 1
        funext p
        by_cases hp : p.1 = k
        · simp [hp]
        · simp [hp]
      rw [hfind]
      cases ha : m.find? (fun p => decide (p.1 = j)) with
      | none => simp
      | some a =>
          have haj := List.find?_some ha
          simp only [decide_eq_true_eq] at haj
          have hak : ¬a.1 = k := fun h => hj (haj ▸ h)
          simp [hak]
  | false =>
      have hsing : List.find? (fun p : JsNum × InternalLevel => decide (p.1 = j))
          [(k, v)] = none := by
        simp
        exact Ne.symm hj
      simp [mapSet, hk, mapLookup, List.find?_append, hsing]

theorem mapLookup_mapDelete_self (m : LevelMap) (k : JsNum) :
    mapLookup (mapDelete m k) k = none := by
  have hnone : (mapDelete m k).find? (fun p => decide (p.1 = k)) = none := by
    rw [List.find?_eq_none]
    intro p hp
    have h2 := (List.mem_filter.mp hp).2
    simp at h2
    simp [h2]
  simp [mapLookup, hnone]

theorem mapLookup_mapDelete_ne (m : LevelMap) (k : JsNum)
    {j : JsNum} (hj : j ≠ k) : mapLookup (mapDelete m k) j = mapLookup m j := by
  induction m with
  | nil => simp [mapDelete, mapLookup]
  | cons p ps ih =>
      by_cases hpk : p.1 = k
      · have hpj : ¬p.1 = j := fun h => hj (hpk ▸ h ▸ rfl)
        have hstep : mapDelete (p :: ps) k = mapDelete ps k := by
          simp [mapDelete, hpk]
        rw [hstep, ih]
        simp [mapLookup, hpj]
      · have hstep : mapDelete (p :: ps) k = p :: mapDelete ps k := by
          simp [mapDelete, hpk]
        rw [hstep]
        by_cases hpj : p.1 = j
        · simp [mapLookup, hpj]
        · simp only [mapLookup] at ih ⊢
          simp [hpj, ih]

theorem mapHasKey_mapSet_self (m : LevelMap) (k : JsNum) (v : InternalLevel) :
    mapHasKey (mapSet m k v) k = true := by
  cases hk : mapHasKey m k with
  | true => rw [mapHasKey_iff, keys_mapSet_of_hasKey v hk]; exact mapHasKey_iff.mp hk
  | false =>
      rw [mapHasKey_iff, keys_mapSet_of_not_hasKey v hk]
      simp

theorem mapHasKey_mapSet_mono {m : LevelMap} {k0 : JsNum}
    (h : mapHasKey m k0 = true) (k : JsNum) (v : InternalLevel) :
    mapHasKey (mapSet m k v) k0 = true := by
  cases hk : mapHasKey m k with
  | true => rw [mapHasKey_iff, keys_mapSet_of_hasKey v hk]; exact mapHasKey_iff.mp h
  | false =>
      rw [mapHasKey_iff, keys_mapSet_of_not_hasKey v hk]
      exact List.mem_append.mpr (Or.inl (mapHasKey_iff.mp h))

theorem mapHasKey_mapSet_false {m : LevelMap} {k v} {k0 : JsNum}
    (h1 : mapHasKey m k0 = false) (h2 : k0 ≠ k) :
    mapHasKey (mapSet m k v) k0 = false := by
  cases hres : mapHasKey (mapSet m k v) k0 with
  | false => rfl
  | true =>
      exfalso
      have hmem := mapHasKey_iff.mp hres
      cases hk : mapHasKey m k with
      | true =>
          rw [keys_mapSet_of_hasKey v hk] at hmem
          simp [mapHasKey_iff.mpr hmem] at h1
      | false =>
          rw [keys_mapSet_of_not_hasKey v hk] at hmem
          rcases List.mem_append.mp hmem with h | h
          · simp [mapHasKey_iff.mpr h] at h1
          · exact h2 (List.mem_singleton.mp h)

theorem length_mapSet_of_not_hasKey {m : LevelMap} {k : JsNum} (v : InternalLevel)
    (h : mapHasKey m k = false) : (mapSet m k v).length = m.length + 1 := by
  simp [mapSet, h]

/-! Facts about `loadSide` and `initState`. -/

theorem foldl_mapSet_mem {ls : List PriceLevel} :
    ∀ (m0 : LevelMap) (p : JsNum × InternalLevel),
      p ∈ ls.foldl (fun m l => mapSet m (parseFloat l.px) (mkLevel l)) m0 →
      p ∈ m0 ∨ ∃ l ∈ ls, p = (parseFloat l.px, mkLevel l) := by
  induction ls with
  | nil => exact fun m0 p hp => Or.inl hp
  | cons l ls ih =>
      intro m0 p hp
      simp only [List.foldl_cons] at hp
      rcases ih _ p hp with h | ⟨l2, hl2, he⟩
      · rcases mem_mapSet h with h2 | h2
        · exact Or.inl h2
        · exact Or.inr ⟨l, List.mem_cons_self l ls, h2⟩
      · exact Or.inr ⟨l2, List.mem_cons_of_mem l hl2, he⟩

theorem mem_loadSide {ls : List PriceLevel} {p : JsNum × InternalLevel}
    (hp : p ∈ loadSide ls) : ∃ l ∈ ls, p = (parseFloat l.px, mkLevel l) := by
  rcases foldl_mapSet_mem [] p hp with h | h
  · exact absurd h (List.not_mem_nil p)
  · exact h

theorem foldl_mapSet_hasKey_mono {ls : List PriceLevel} :
    ∀ (m0 : LevelMap) (k : JsNum), mapHasKey m0 k = true →
      mapHasKey (ls.foldl (fun m l => mapSet m (parseFloat l.px) (mkLevel l)) m0) k
        = true := by
  induction ls with
  | nil => exact fun m0 k h => h
  | cons l ls ih =>
      intro m0 k h
      simp only [List.foldl_cons]
      exact ih _ k (mapHasKey_mapSet_mono h _ _)

theorem mapHasKey_loadSide {ls : List PriceLevel} {l : PriceLevel} (hl : l ∈ ls) :
    mapHasKey (loadSide ls) (parseFloat l.px) = true := by
  have haux : ∀ (ls2 : List PriceLevel) (m0 : LevelMap), l ∈ ls2 →
      mapHasKey (ls2.foldl (fun m l => mapSet m (parseFloat l.px) (mkLevel l)) m0)
        (parseFloat l.px) = true := by
    intro ls2
    induction ls2 with
    | nil => intro m0 h; cases h
    | cons l0 ls2 ih =>
        intro m0 h
        simp only [List.foldl_cons]
        rcases List.mem_cons.mp h with rfl | h2
        · exact foldl_mapSet_hasKey_mono _ _ (mapHasKey_mapSet_self m0 _ _)
        · exact ih _ h2
  exact haux ls [] hl

theorem keysNodup_loadSide (ls : List PriceLevel) :
    ((loadSide ls).map Prod.fst).Nodup := by
  have haux : ∀ (m0 : LevelMap), (m0.map Prod.fst).Nodup →
      ((ls.foldl (fun m l => mapSet m (parseFloat l.px) (mkLevel l)) m0).map
        Prod.fst).Nodup := by
    induction ls with
    | nil => exact fun m0 h => h
    | cons l ls ih =>
        intro m0 h
        simp only [List.foldl_cons]
        exact ih _ (keysNodup_mapSet _ h)
  exact haux [] (by simp)

theorem loadSide_keyed {ls : List PriceLevel} {p : JsNum × InternalLevel}
    (hp : p ∈ loadSide ls) : p.2.price = p.1 := by
  rcases mem_loadSide hp with ⟨l, _, rfl⟩
  rfl

theorem loadSide_length {ls : List PriceLevel}
    (hnd : (ls.map (fun l => parseFloat l.px)).Nodup) :
    (loadSide ls).length = ls.length := by
  have haux : ∀ (ls2 : List PriceLevel) (m0 : LevelMap),
      (ls2.map (fun l => parseFloat l.px)).Nodup →
      (∀ l ∈ ls2, mapHasKey m0 (parseFloat l.px) = false) →
      (ls2.foldl (fun m l => mapSet m (parseFloat l.px) (mkLevel l)) m0).length
        = m0.length + ls2.length := by
    intro ls2
    induction ls2 with
    | nil => intro m0 _ _; simp
    | cons l ls2 ih =>
        intro m0 hnd2 hfresh
        simp only [List.foldl_cons]
        rw [List.map_cons, List.nodup_cons] at hnd2
        have h1 : (mapSet m0 (parseFloat l.px) (mkLevel l)).length
            = m0.length + 1 :=
          length_mapSet_of_not_hasKey _ (hfresh l (List.mem_cons_self l ls2))
        rw [ih _ hnd2.2 ?_, h1]
        · simp only [List.length_cons]
          omega
        · intro l2 hl2
          refine mapHasKey_mapSet_false (hfresh l2 (List.mem_cons_of_mem l hl2)) ?_
          intro he
          exact hnd2.1 (he ▸ List.mem_map_of_mem (fun l => parseFloat l.px) hl2)
  have := haux ls [] hnd (fun l _ => rfl)
  simpa [loadSide] using this

/-! Comparator facts and sorted-side lemmas. -/

theorem bidLe_total (a b : InternalLevel) : bidLe a b = true ∨ bidLe b a = true := by
  unfold bidLe
  cases ha : a.price with
  | none => cases hb : b.price <;> simp
  | some qa =>
      cases hb : b.price with
      | none => simp
      | some qb => simpa using le_total qb qa

theorem askLe_total (a b : InternalLevel) : askLe a b = true ∨ askLe b a = true := by
  unfold askLe
  cases ha : a.price with
  | none => cases hb : b.price <;> simp
  | some qa =>
      cases hb : b.price with
      | none => simp
      | some qb => simpa using le_total qa qb

theorem bidLe_trans_finite {a b c : InternalLevel}
    (hb : (b.price).isSome = true) (hab : bidLe a b = true)
    (hbc : bidLe b c = true) : bidLe a c = true := by
  unfold bidLe at *
  cases ha : a.price with
  | none => cases c.price <;> simp
  | some qa =>
      cases hc : c.price with
      | none => simp
      | some qc =>
          cases hbp : b.price with
          | none => rw [hbp] at hb; cases hb
          | some qb =>
              rw [ha, hbp] at hab
              rw [hbp, hc] at hbc
              simp only [decide_eq_true_eq] at hab hbc ⊢
              exact le_trans hbc hab

theorem askLe_trans_finite {a b c : InternalLevel}
    (hb : (b.price).isSome = true) (hab : askLe a b = true)
    (hbc : askLe b c = true) : askLe a c = true := by
  unfold askLe at *
  cases ha : a.price with
  | none => cases c.price <;> simp
  | some qa =>
      cases hc : c.price with
      | none => simp
      | some qc =>
          cases hbp : b.price with
          | none => rw [hbp] at hb; cases hb
          | some qb =>
              rw [ha, hbp] at hab
              rw [hbp, hc] at hbc
              simp only [decide_eq_true_eq] at hab hbc ⊢
              exact le_trans hab hbc

theorem mem_mapValues_isSome {m : LevelMap}
    (hfin : ∀ p ∈ m, (p.2.price).isSome = true) {b : InternalLevel}
    (hb : b ∈ mapValues m) : (b.price).isSome = true := by
  rcases List.mem_map.mp hb with ⟨p, hp, rfl⟩
  exact hfin p hp

theorem sortBids_pairwise {m : LevelMap}
    (hfin : ∀ p ∈ m, (p.2.price).isSome = true) :
    (sortBids m).Pairwise (fun a b => bidLe a b = true) := by
  refine pairwise_jsSort bidLe (mapValues m)
    (fun a _ b _ => bidLe_total a b) ?_
  intro a _ b hb c _ hab hbc
  exact bidLe_trans_finite (mem_mapValues_isSome hfin hb) hab hbc

theorem sortAsks_pairwise {m : LevelMap}
    (hfin : ∀ p ∈ m, (p.2.price).isSome = true) :
    (sortAsks m).Pairwise (fun a b => askLe a b = true) := by
  refine pairwise_jsSort askLe (mapValues m)
    (fun a _ b _ => askLe_total a b) ?_
  intro a _ b hb c _ hab hbc
  exact askLe_trans_finite (mem_mapValues_isSome hfin hb) hab hbc

/-- Strict descending order on levels: both prices finite and strictly
decreasing. -/
def priceGt (a b : InternalLevel) : Prop :=
  ∃ qa qb : ℚ, a.price = some qa ∧ b.price = some qb ∧ qb < qa

/-- Strict ascending order on levels. -/
def priceLt (a b : InternalLevel) : Prop :=
  ∃ qa qb : ℚ, a.price = some qa ∧ b.price = some qb ∧ qa < qb

theorem pricesNodup_of_keys {m : LevelMap}
    (hnd : (m.map Prod.fst).Nodup) (hkey : ∀ p ∈ m, p.2.price = p.1) :
    ((mapValues m).map InternalLevel.price).Nodup := by
  have heq : (mapValues m).map InternalLevel.price = m.map Prod.fst := by
    simp only [mapValues, List.map_map]
    exact List.map_congr_left (fun p hp => hkey p hp)
  rw [heq]
  exact hnd

theorem sortBids_strict {m : LevelMap}
    (hfin : ∀ p ∈ m, (p.2.price).isSome = true)
    (hnd : ((mapValues m).map InternalLevel.price).Nodup) :
    (sortBids m).Pairwise priceGt := by
  have hperm : List.Perm (sortBids m) (mapValues m) := jsSort_perm _ _
  have hnd2 : ((sortBids m).map InternalLevel.price).Nodup :=
    (hperm.map InternalLevel.price).nodup_iff.mpr hnd
  have hpw := (sortBids_pairwise hfin).and (List.pairwise_map.mp hnd2)
  refine hpw.imp_of_mem ?_
  intro a b ha hb h
  obtain ⟨hle, hne⟩ := h
  rcases Option.isSome_iff_exists.mp
      (mem_mapValues_isSome hfin (hperm.mem_iff.mp ha)) with ⟨qa, hqa⟩
  rcases Option.isSome_iff_exists.mp
      (mem_mapValues_isSome hfin (hperm.mem_iff.mp hb)) with ⟨qb, hqb⟩
  refine ⟨qa, qb, hqa, hqb, ?_⟩
  unfold bidLe at hle
  rw [hqa, hqb] at hle
  simp only [decide_eq_true_eq] at hle
  rcases lt_or_eq_of_le hle with h | h
  · exact h
  · exact absurd (by rw [hqa, hqb, h]) hne

theorem sortAsks_strict {m : LevelMap}
    (hfin : ∀ p ∈ m, (p.2.price).isSome = true)
    (hnd : ((mapValues m).map InternalLevel.price).Nodup) :
    (sortAsks m).Pairwise priceLt := by
  have hperm : List.Perm (sortAsks m) (mapValues m) := jsSort_perm _ _
  have hnd2 : ((sortAsks m).map InternalLevel.price).Nodup :=
    (hperm.map InternalLevel.price).nodup_iff.mpr hnd
  have hpw := (sortAsks_pairwise hfin).and (List.pairwise_map.mp hnd2)
  refine hpw.imp_of_mem ?_
  intro a b ha hb h
  obtain ⟨hle, hne⟩ := h
  rcases Option.isSome_iff_exists.mp
      (mem_mapValues_isSome hfin (hperm.mem_iff.mp ha)) with ⟨qa, hqa⟩
  rcases Option.isSome_iff_exists.mp
      (mem_mapValues_isSome hfin (hperm.mem_iff.mp hb)) with ⟨qb, hqb⟩
  refine ⟨qa, qb, hqa, hqb, ?_⟩
  unfold askLe at hle
  rw [hqa, hqb] at hle
  simp only [decide_eq_true_eq] at hle
  rcases lt_or_eq_of_le hle with h | h
  · exact h
  · exact absurd (by rw [hqa, hqb, h]) hne

/-! Facts about the delta sort. -/

theorem sortDeltas_perm (ds : List OrderbookDelta) :
    List.Perm (sortDeltas ds) ds := jsSort_perm seqLe ds

theorem sortDeltas_pairwise (ds : List OrderbookDelta) :
    (sortDeltas ds).Pairwise (fun a b => seqLe a b = true) := by
  refine pairwise_jsSort seqLe ds ?_ ?_
  · intro a _ b _
    simp only [seqLe, decide_eq_true_eq]
    exact le_total a.sequence b.sequence
  · intro a _ b _ c _ hab hbc
    simp only [seqLe, decide_eq_true_eq] at hab hbc ⊢
    exact le_trans hab hbc

theorem sortDeltas_eq_of_perm {ds1 ds2 : List OrderbookDelta}
    (hp : List.Perm ds1 ds2)
    (hnd : (ds1.map OrderbookDelta.sequence).Nodup) :
    sortDeltas ds1 = sortDeltas ds2 := by
  have h1 := sortDeltas_perm ds1
  have h2 := sortDeltas_perm ds2
  have hperm : List.Perm (sortDeltas ds1) (sortDeltas ds2) :=
    h1.trans (hp.trans h2.symm)
  have hnd1 : ((sortDeltas ds1).map OrderbookDelta.sequence).Nodup :=
    (h1.map OrderbookDelta.sequence).nodup_iff.mpr hnd
  have hnd2 : ((sortDeltas ds2).map OrderbookDelta.sequence).Nodup :=
    (hperm.map OrderbookDelta.sequence).symm.nodup_iff.mpr hnd1
  have hstrict : ∀ (l : List OrderbookDelta),
      l.Pairwise (fun a b => seqLe a b = true) →
      (l.map OrderbookDelta.sequence).Nodup →
      l.Pairwise (fun a b => a.sequence < b.sequence) := by
    intro l hle hnd0
    refine ((hle.and (List.pairwise_map.mp hnd0)).imp ?_)
    intro a b h
    obtain ⟨h1, h2⟩ := h
    simp only [seqLe, decide_eq_true_eq] at h1
    exact lt_of_le_of_ne h1 h2
  have hs1 := hstrict _ (sortDeltas_pairwise ds1) hnd1
  have hs2 := hstrict _ (sortDeltas_pairwise ds2) hnd2
  haveI : IsAntisymm OrderbookDelta (fun a b => a.sequence < b.sequence) :=
    ⟨fun a b h1 h2 => absurd (h1.trans h2) (lt_irrefl _)⟩
  exact List.eq_of_perm_of_sorted hperm hs1 hs2

/-! Facts about the replay loop. -/

theorem replaySorted_state (depth : Option ℕ) (emitAll : Bool)
    (st : BookState) (ds : List OrderbookDelta) :
    (replaySorted depth emitAll st ds).2 = ds.foldl applyDelta st := by
  induction ds generalizing st with
  | nil => rfl
  | cons d ds ih =>
      simp only [replaySorted, List.foldl_cons]
      exact ih _

theorem replaySorted_true_length (depth : Option ℕ)
    (st : BookState) (ds : List OrderbookDelta) :
    (replaySorted depth true st ds).1.length = ds.length := by
  induction ds generalizing st with
  | nil => rfl
  | cons d ds ih =>
      simp only [replaySorted, if_true, List.length_cons]
      simp [ih]

theorem replaySorted_false_snaps (depth : Option ℕ)
    (st : BookState) (ds : List OrderbookDelta) :
    (replaySorted depth false st ds).1 = [] := by
  induction ds generalizing st with
  | nil => rfl
  | cons d ds ih =>
      simp only [replaySorted]
      simp [ih]

theorem replaySorted_true_last (depth : Option ℕ)
    (st : BookState) (ds : List OrderbookDelta) :
    (getSnapshot st depth :: (replaySorted depth true st ds).1).getLast?
      = some (getSnapshot (ds.foldl applyDelta st) depth) := by
  induction ds generalizing st with
  | nil => rfl
  | cons d ds ih =>
      simp only [replaySorted, if_true, List.foldl_cons, List.singleton_append]
      rw [List.getLast?_cons_cons]
      exact ih (applyDelta st d)

/-! The head of a sorted side is the extremal price. -/

theorem head_sortBids_max {m : LevelMap}
    (hfin : ∀ p ∈ m, (p.2.price).isSome = true)
    {l0 : InternalLevel} (h0 : (sortBids m).head? = some l0) :
    l0 ∈ mapValues m ∧
      ∀ l ∈ mapValues m, ∀ q q0 : ℚ,
        l.price = some q → l0.price = some q0 → q ≤ q0 := by
  have hperm : List.Perm (sortBids m) (mapValues m) := jsSort_perm _ _
  cases hs : sortBids m with
  | nil => rw [hs] at h0; cases h0
  | cons x tl =>
      rw [hs] at h0
      have hx : x = l0 := by simpa using h0
      subst hx
      have hpw := sortBids_pairwise hfin
      rw [hs] at hpw
      have hhead := (List.pairwise_cons.mp hpw).1
      constructor
      · exact hperm.mem_iff.mp (hs ▸ List.mem_cons_self x tl)
      · intro l hl q q0 hq hq0
        have hl2 : l ∈ x :: tl := hs ▸ hperm.mem_iff.mpr hl
        rcases List.mem_cons.mp hl2 with rfl | hl3
        · rw [hq] at hq0
          simp at hq0
          exact le_of_eq hq0
        · have := hhead l hl3
          unfold bidLe at this
          rw [hq0, hq] at this
          simpa using this

theorem head_sortAsks_min {m : LevelMap}
    (hfin : ∀ p ∈ m, (p.2.price).isSome = true)
    {l0 : InternalLevel} (h0 : (sortAsks m).head? = some l0) :
    l0 ∈ mapValues m ∧
      ∀ l ∈ mapValues m, ∀ q q0 : ℚ,
        l.price = some q → l0.price = some q0 → q0 ≤ q := by
  have hperm : List.Perm (sortAsks m) (mapValues m) := jsSort_perm _ _
  cases hs : sortAsks m with
  | nil => rw [hs] at h0; cases h0
  | cons x tl =>
      rw [hs] at h0
      have hx : x = l0 := by simpa using h0
      subst hx
      have hpw := sortAsks_pairwise hfin
      rw [hs] at hpw
      have hhead := (List.pairwise_cons.mp hpw).1
      constructor
      · exact hperm.mem_iff.mp (hs ▸ List.mem_cons_self x tl)
      · intro l hl q q0 hq hq0
        have hl2 : l ∈ x :: tl := hs ▸ hperm.mem_iff.mpr hl
        rcases List.mem_cons.mp hl2 with rfl | hl3
        · rw [hq] at hq0
          simp at hq0
          exact le_of_eq hq0.symm
        · have := hhead l hl3
          unfold askLe at this
          rw [hq0, hq] at this
          simpa using this

/-! Claim C10. -/

/-- C10: `reconstructAll`, `iterate` and `reconstructFinal` each begin by
re-initializing the instance state from the given checkpoint, so each
result is a function of the call's arguments alone: two calls to the
same entry point with equal checkpoint, deltas and options return equal
results regardless of the prior instance state. -/
theorem C10_result_independent_of_prior_state (st1 st2 : BookState)
    (cp : OrderBook) (ds : List OrderbookDelta) (depth : Option ℕ)
    (emitAll : Bool) :
    (reconstructAll st1 cp ds depth emitAll).1
      = (reconstructAll st2 cp ds depth emitAll).1 ∧
    (iterateSnaps st1 cp ds depth).1 = (iterateSnaps st2 cp ds depth).1 ∧
    (reconstructFinal st1 cp ds depth).1 = (reconstructFinal st2 cp ds depth).1 :=
  ⟨rfl, rfl, rfl⟩

/-! Claim C3. -/

/-- C3: with `emitAll` true, `reconstructAll` returns exactly
`1 + deltaCount` snapshots (pre-delta state first, then one snapshot
after each delta in ascending sequence order); `iterate` yields exactly
the same sequence; `reconstructFinal` equals the last element of that
sequence (exactly, in the exact-rational model); and `reconstructAll`
with `emitAll` false returns exactly that one final snapshot. -/
theorem C3_reconstruction_modes_agree (st0 : BookState) (cp : OrderBook)
    (ds : List OrderbookDelta) (depth : Option ℕ) :
    (reconstructAll st0 cp ds depth true).1.length = 1 + ds.length ∧
    (iterateSnaps st0 cp ds depth).1 = (reconstructAll st0 cp ds depth true).1 ∧
    (reconstructAll st0 cp ds depth true).1.getLast?
      = some (reconstructFinal st0 cp ds depth).1 ∧
    (reconstructAll st0 cp ds depth false).1
      = [(reconstructFinal st0 cp ds depth).1] := by
  refine ⟨?_, ?_, ?_, ?_⟩
  · simp only [reconstructAll, if_true, List.append_nil, List.singleton_append,
      List.length_cons, replaySorted_true_length]
    rw [(sortDeltas_perm ds).length_eq]
    omega
  · simp [reconstructAll, iterateSnaps]
  · simp only [reconstructAll, reconstructFinal, if_true, List.append_nil,
      List.singleton_append]
    exact replaySorted_true_last depth (initStateFrom st0 cp) (sortDeltas ds)
  · simp only [reconstructAll, reconstructFinal, Bool.false_eq_true, if_false,
      replaySorted_false_snaps, replaySorted_state, List.nil_append]

/-! Claim C9. -/

/-- The gap scan as the specification words it: for each adjacent pair
of the sequence-sorted list, record `(expected, actual)` with
`expected = previous.sequence + 1` whenever `actual` differs. -/
def zipGaps (l : List OrderbookDelta) : List (ℤ × ℤ) :=
  (l.zip l.tail).filterMap (fun p =>
    if p.2.sequence = p.1.sequence + 1 then none
    else some (p.1.sequence + 1, p.2.sequence))

theorem gapsOf_eq_zipGaps : ∀ l : List OrderbookDelta, gapsOf l = zipGaps l
  | [] => rfl
  | [_] => rfl
  | a :: b :: rest => by
      have ih := gapsOf_eq_zipGaps (b :: rest)
      simp only [gapsOf, zipGaps, List.tail_cons, List.zip_cons_cons,
        List.filterMap_cons] at ih ⊢
      by_cases h : b.sequence = a.sequence + 1
      · simp [h, ih]
      · simp [h, ih]

theorem gapsOf_eq_nil_of_chain :
    ∀ l : List OrderbookDelta,
      List.Chain' (fun a b => b.sequence = a.sequence + 1) l → gapsOf l = []
  | [], _ => rfl
  | [_], _ => rfl
  | a :: b :: rest, h => by
      rw [List.chain'_cons] at h
      simp [gapsOf, h.1, gapsOf_eq_nil_of_chain (b :: rest) h.2]

/-- Delta fixture used by the gap-detection examples. -/
def gapD (sq : ℤ) : OrderbookDelta :=
  { side := Side.bid, price := 1, size := 1, sequence := sq, timestamp := 0 }

/-- C9: `detectGaps` sorts by sequence and records `(expected, actual)`
for each adjacent sorted pair with `actual` different from
`previous.sequence + 1`; it returns the empty list for fewer than two
deltas or a perfectly contiguous sequence, and on `[1,2,3,4]`, `[1,3,4]`
and a single delta it returns `[]`, `[(2,3)]` and `[]` respectively. -/
theorem C9_detectGaps_spec (ds : List OrderbookDelta) :
    detectGaps ds = zipGaps (sortDeltas ds) ∧
    (ds.length < 2 → detectGaps ds = []) ∧
    (List.Chain' (fun a b => b.sequence = a.sequence + 1) (sortDeltas ds) →
      detectGaps ds = []) ∧
    detectGaps [gapD 1, gapD 2, gapD 3, gapD 4] = [] ∧
    detectGaps [gapD 1, gapD 3, gapD 4] = [(2, 3)] ∧
    detectGaps [gapD 1] = [] := by
  refine ⟨?_, ?_, ?_, by decide, by decide, by decide⟩
  · unfold detectGaps
    by_cases h : ds.length < 2
    · rw [if_pos h]
      have hlen : (sortDeltas ds).length < 2 := by
        rw [(sortDeltas_perm ds).length_eq]; exact h
      match hs : sortDeltas ds, hlen with
      | [], _ => rfl
      | [_], _ => rfl
    · rw [if_neg h]
      exact gapsOf_eq_zipGaps _
  · intro h
    simp [detectGaps, h]
  · intro h
    unfold detectGaps
    by_cases h2 : ds.length < 2
    · simp [h2]
    · simp [h2, gapsOf_eq_nil_of_chain _ h]

/-- C9 witness: the hypothesis-bearing parts evaluated at concrete
inputs. -/
theorem C9_witness :
    detectGaps [gapD 5] = [] ∧ detectGaps [gapD 7, gapD 8] = [] := by
  constructor
  · exact (C9_detectGaps_spec [gapD 5]).2.1 (by decide)
  · have hs : sortDeltas [gapD 7, gapD 8] = [gapD 7, gapD 8] := by decide
    refine (C9_detectGaps_spec [gapD 7, gapD 8]).2.2.1 ?_
    rw [hs]
    exact List.chain'_cons.mpr ⟨by decide, List.chain'_singleton _⟩

/-! Claim C7. -/

/-- C7: with pairwise distinct sequence numbers, replay is invariant
under permutation of the supplied delta list: `reconstructFinal` and
the final snapshot of `reconstructAll` agree for any two permutations
of the same deltas. -/
theorem C7_replay_permutation_invariant (st0 : BookState) (cp : OrderBook)
    {ds1 ds2 : List OrderbookDelta} (hp : List.Perm ds1 ds2)
    (hnd : (ds1.map OrderbookDelta.sequence).Nodup) (depth : Option ℕ) :
    (reconstructFinal st0 cp ds1 depth).1
      = (reconstructFinal st0 cp ds2 depth).1 ∧
    (reconstructAll st0 cp ds1 depth true).1.getLast?
      = (reconstructAll st0 cp ds2 depth true).1.getLast? := by
  have hs := sortDeltas_eq_of_perm hp hnd
  constructor
  · simp only [reconstructFinal, hs]
  · simp only [reconstructAll, hs]

/-- Delta fixtures for the permutation witness. -/
def permD1 : OrderbookDelta :=
  { side := Side.bid, price := 100, size := 2, sequence := 1, timestamp := 10 }

def permD2 : OrderbookDelta :=
  { side := Side.ask, price := 101, size := 3, sequence := 2, timestamp := 20 }

/-- Empty checkpoint fixture. -/
def cpEmpty : OrderBook :=
  { coin := "BTC", timestamp := "t0", bids := [], asks := [] }

/-- A fresh reconstructor instance state. -/
def stEmpty : BookState :=
  { bids := [], asks := [], coin := "", lastTimestamp := "", lastSequence := 0 }

/-- C7 witness: the permutation invariance applied to a two-delta list
and its transposition. -/
theorem C7_witness :
    (reconstructFinal stEmpty cpEmpty [permD1, permD2] none).1
      = (reconstructFinal stEmpty cpEmpty [permD2, permD1] none).1 := by
  exact (C7_replay_permutation_invariant stEmpty cpEmpty
    (List.Perm.swap permD2 permD1 []) (by decide) none).1

/-! Claim C1. -/

/-- Checkpoint fixture whose only bid level has an unparsable price. -/
def cpBadPx : OrderBook :=
  { coin := "BTC", timestamp := "t0",
    bids := [{ px := "abc", sz := "1", n := 2 }], asks := [] }

/-- C1 counterexample: on a checkpoint with an unparsable price,
`initialize` does not fail: `parseFloat` yields `NaN` and the level is
stored (keyed by `NaN`), after which `getSnapshot` is usable — there is
no `ParseError` anywhere in the implementation. -/
theorem C1_counterexample :
    parseFloat "abc" = none ∧
    (initState cpBadPx).bids
      = [(none, { price := none, size := some 1, orders := 2 })] ∧
    (getSnapshot (initState cpBadPx) none).bids
      = [{ px := none, sz := some 1, n := 2 }] := by decide

/-- C1 (amended): `initialize` never fails; it always fully populates
both sides: every checkpoint level is stored under its parsed price key
(`NaN` included — a malformed level is stored with `NaN` price/size,
never dropped, zero-filled or rejected), and every stored entry comes
from a checkpoint level. -/
theorem C1_initState_total (cp : OrderBook) :
    (∀ l ∈ cp.bids, mapHasKey (initState cp).bids (parseFloat l.px) = true) ∧
    (∀ l ∈ cp.asks, mapHasKey (initState cp).asks (parseFloat l.px) = true) ∧
    (∀ p ∈ (initState cp).bids, ∃ l ∈ cp.bids, p = (parseFloat l.px, mkLevel l)) ∧
    (∀ p ∈ (initState cp).asks, ∃ l ∈ cp.asks, p = (parseFloat l.px, mkLevel l)) :=
  ⟨fun _ hl => mapHasKey_loadSide hl, fun _ hl => mapHasKey_loadSide hl,
    fun _ hp => mem_loadSide hp, fun _ hp => mem_loadSide hp⟩

/-- C1 witness: the population facts applied to the malformed
checkpoint. -/
theorem C1_witness :
    mapHasKey (initState cpBadPx).bids (parseFloat "abc") = true ∧
    ∃ l ∈ cpBadPx.bids,
      ((none, { price := none, size := some 1, orders := 2 }) :
          JsNum × InternalLevel)
        = (parseFloat l.px, mkLevel l) := by
  constructor
  · exact (C1_initState_total cpBadPx).1 { px := "abc", sz := "1", n := 2 } (by decide)
  · exact (C1_initState_total cpBadPx).2.2.1
      (none, { price := none, size := some 1, orders := 2 }) (by decide)

/-! Claim C5. -/

/-- Checkpoint fixture with an explicit zero-size bid level. -/
def cpZeroSz : OrderBook :=
  { coin := "BTC", timestamp := "t0",
    bids := [{ px := "100", sz := "0", n := 1 }], asks := [] }

/-- C5 counterexample: right after `initialize` on a checkpoint whose
bid level has size `"0"`, a zero-size level is resident in the bid
container — `initialize` stores checkpoint levels verbatim. -/
theorem C5_counterexample :
    ∃ p ∈ (initState cpZeroSz).bids, p.2.size = some 0 := by
  refine ⟨(parseFloat "100", mkLevel { px := "100", sz := "0", n := 1 }), ?_, ?_⟩
  · decide
  · decide

/-- A state with no zero-size level resident on either side. -/
def zeroFree (st : BookState) : Prop :=
  (∀ p ∈ st.bids, p.2.size ≠ some 0) ∧ (∀ p ∈ st.asks, p.2.size ≠ some 0)

theorem zeroFree_applyDelta {st : BookState} (h : zeroFree st)
    (d : OrderbookDelta) : zeroFree (applyDelta st d) := by
  obtain ⟨hb, ha⟩ := h
  have hupd : ∀ (m : LevelMap), (∀ p ∈ m, p.2.size ≠ some 0) →
      ∀ p ∈ (if d.size = 0 then mapDelete m (some d.price)
        else mapSet m (some d.price)
          { price := some d.price, size := some d.size, orders := 1 }),
      p.2.size ≠ some 0 := by
    intro m hm p hp
    by_cases hz : d.size = 0
    · rw [if_pos hz] at hp
      exact hm p (mem_mapDelete hp)
    · rw [if_neg hz] at hp
      rcases mem_mapSet hp with h2 | h2
      · exact hm p h2
      · rw [h2]
        simpa using hz
  cases hside : d.side with
  | bid => exact ⟨fun p hp => hupd st.bids hb p (by simpa [applyDelta, hside] using hp),
      fun p hp => ha p (by simpa [applyDelta, hside] using hp)⟩
  | ask => exact ⟨fun p hp => hb p (by simpa [applyDelta, hside] using hp),
      fun p hp => hupd st.asks ha p (by simpa [applyDelta, hside] using hp)⟩

theorem zeroFree_foldl {st : BookState} (h : zeroFree st) :
    ∀ ds : List OrderbookDelta, zeroFree (ds.foldl applyDelta st) := by
  intro ds
  induction ds generalizing st with
  | nil => exact h
  | cons d ds ih => exact ih (zeroFree_applyDelta h d)

/-- C5 (amended): `applyDelta` never stores a zero-size level (a
zero-size delta removes the key), so after `initialize` on a checkpoint
none of whose levels has a size parsing to 0, no zero-size level is
ever resident under any further sequence of `applyDelta` calls;
`initialize` itself, however, stores checkpoint levels verbatim,
including explicit zero sizes. -/
theorem C5_no_zero_size_resident (cp : OrderBook) (ds : List OrderbookDelta)
    (hb : ∀ l ∈ cp.bids, parseFloat l.sz ≠ some 0)
    (ha : ∀ l ∈ cp.asks, parseFloat l.sz ≠ some 0) :
    (∀ p ∈ (ds.foldl applyDelta (initState cp)).bids, p.2.size ≠ some 0) ∧
    (∀ p ∈ (ds.foldl applyDelta (initState cp)).asks, p.2.size ≠ some 0) := by
  have hinit : zeroFree (initState cp) := by
    constructor
    · intro p hp
      rcases mem_loadSide hp with ⟨l, hl, rfl⟩
      exact hb l hl
    · intro p hp
      rcases mem_loadSide hp with ⟨l, hl, rfl⟩
      exact ha l hl
  exact zeroFree_foldl hinit ds

/-- Checkpoint fixture with non-zero sizes. -/
def cpClean : OrderBook :=
  { coin := "BTC", timestamp := "t0",
    bids := [{ px := "100", sz := "2", n := 1 }],
    asks := [{ px := "101", sz := "3", n := 1 }] }

/-- Zero-size delta fixture at a resident price. -/
def delZero : OrderbookDelta :=
  { side := Side.bid, price := 100, size := 0, sequence := 1, timestamp := 5 }

/-- C5 witness: the invariant applied to a clean checkpoint and a
zero-size delta. -/
theorem C5_witness :
    (∀ p ∈ (([delZero]).foldl applyDelta (initState cpClean)).bids,
      p.2.size ≠ some 0) ∧
    (∀ p ∈ (([delZero]).foldl applyDelta (initState cpClean)).asks,
      p.2.size ≠ some 0) :=
  C5_no_zero_size_resident cpClean [delZero] (by decide) (by decide)

/-! Claim C4. -/

/-- `delta.side === 'bid' ? this.bids : this.asks`. -/
def sideMap (st : BookState) : Side → LevelMap
  | Side.bid => st.bids
  | Side.ask => st.asks

/-- C4: `applyDelta` on the side selected by `delta.side`: size 0
removes the entry at `delta.price` if present and leaves the levels
untouched when that price is absent; a positive size inserts or
overwrites the entry with the delta's size and order count 1; and in
both cases the last-applied timestamp and sequence are updated
unconditionally. -/
theorem C4_applyDelta_semantics (st : BookState) (d : OrderbookDelta) :
    (applyDelta st d).lastSequence = d.sequence ∧
    (applyDelta st d).lastTimestamp = toISOString d.timestamp ∧
    (d.size = 0 →
      mapLookup (sideMap (applyDelta st d) d.side) (some d.price) = none ∧
      (∀ k : JsNum, k ≠ some d.price →
        mapLookup (sideMap (applyDelta st d) d.side) k
          = mapLookup (sideMap st d.side) k) ∧
      (mapHasKey (sideMap st d.side) (some d.price) = false →
        sideMap (applyDelta st d) d.side = sideMap st d.side)) ∧
    (0 < d.size →
      mapLookup (sideMap (applyDelta st d) d.side) (some d.price)
        = some { price := some d.price, size := some d.size, orders := 1 } ∧
      (∀ k : JsNum, k ≠ some d.price →
        mapLookup (sideMap (applyDelta st d) d.side) k
          = mapLookup (sideMap st d.side) k)) := by
  by_cases hz : d.size = 0
  · cases hside : d.side with
    | bid =>
        refine ⟨by simp [applyDelta, hside], by simp [applyDelta, hside], ?_, ?_⟩
        · intro _
          have hmap : sideMap (applyDelta st d) Side.bid
              = mapDelete st.bids (some d.price) := by
            simp [applyDelta, sideMap, hside, hz]
          rw [hmap]
          refine ⟨mapLookup_mapDelete_self _ _, ?_, ?_⟩
          · intro k hk
            rw [mapLookup_mapDelete_ne _ _ hk]
            simp [sideMap, hside]
          · intro habs
            rw [mapDelete_of_not_hasKey (by simpa [sideMap, hside] using habs)]
            simp [sideMap, hside]
        · intro hpos
          exact absurd (hz ▸ hpos) (lt_irrefl 0)
    | ask =>
        refine ⟨by simp [applyDelta, hside], by simp [applyDelta, hside], ?_, ?_⟩
        · intro _
          have hmap : sideMap (applyDelta st d) Side.ask
              = mapDelete st.asks (some d.price) := by
            simp [applyDelta, sideMap, hside, hz]
          rw [hmap]
          refine ⟨mapLookup_mapDelete_self _ _, ?_, ?_⟩
          · intro k hk
            rw [mapLookup_mapDelete_ne _ _ hk]
            simp [sideMap, hside]
          · intro habs
            rw [mapDelete_of_not_hasKey (by simpa [sideMap, hside] using habs)]
            simp [sideMap, hside]
        · intro hpos
          exact absurd (hz ▸ hpos) (lt_irrefl 0)
  · cases hside : d.side with
    | bid =>
        refine ⟨by simp [applyDelta, hside], by simp [applyDelta, hside], ?_, ?_⟩
        · intro h0
          exact absurd h0 hz
        · intro _
          have hmap : sideMap (applyDelta st d) Side.bid
              = mapSet st.bids (some d.price)
                  { price := some d.price, size := some d.size, orders := 1 } := by
            simp [applyDelta, sideMap, hside, hz]
          rw [hmap]
          refine ⟨mapLookup_mapSet_self _ _ _, ?_⟩
          intro k hk
          rw [mapLookup_mapSet_ne _ _ _ hk]
          simp [sideMap, hside]
    | ask =>
        refine ⟨by simp [applyDelta, hside], by simp [applyDelta, hside], ?_, ?_⟩
        · intro h0
          exact absurd h0 hz
        · intro _
          have hmap : sideMap (applyDelta st d) Side.ask
              = mapSet st.asks (some d.price)
                  { price := some d.price, size := some d.size, orders := 1 } := by
            simp [applyDelta, sideMap, hside, hz]
          rw [hmap]
          refine ⟨mapLookup_mapSet_self _ _ _, ?_⟩
          intro k hk
          rw [mapLookup_mapSet_ne _ _ _ hk]
          simp [sideMap, hside]

/-- Zero-size delta fixture at an absent price. -/
def delZeroMiss : OrderbookDelta :=
  { side := Side.bid, price := 55, size := 0, sequence := 6, timestamp := 7 }

/-- Positive-size delta fixture at a new price. -/
def delIns : OrderbookDelta :=
  { side := Side.bid, price := 105, size := 4, sequence := 7, timestamp := 9 }

/-- C4 witness: removal, absent-price no-op, upsert and the
unconditional bookkeeping, applied to a concrete state. -/
theorem C4_witness :
    (applyDelta (initState cpClean) delZero).lastSequence = 1 ∧
    (applyDelta (initState cpClean) delZero).lastTimestamp = toISOString 5 ∧
    mapLookup (sideMap (applyDelta (initState cpClean) delZero) Side.bid)
      (some 100) = none ∧
    sideMap (applyDelta (initState cpClean) delZeroMiss) Side.bid
      = sideMap (initState cpClean) Side.bid ∧
    mapLookup (sideMap (applyDelta (initState cpClean) delIns) Side.bid)
      (some 105)
      = some { price := some 105, size := some 4, orders := 1 } := by
  refine ⟨(C4_applyDelta_semantics (initState cpClean) delZero).1,
    (C4_applyDelta_semantics (initState cpClean) delZero).2.1, ?_, ?_, ?_⟩
  · exact ((C4_applyDelta_semantics (initState cpClean) delZero).2.2.1 rfl).1
  · exact (((C4_applyDelta_semantics (initState cpClean) delZeroMiss).2.2.1
      rfl).2.2) (by decide)
  · exact ((C4_applyDelta_semantics (initState cpClean) delIns).2.2.2
      (by decide)).1

/-! Claim C2. -/

theorem midOf_none_left (y : Option JsNum) : midOf none y = none := by
  rcases y with _ | q
  · rfl
  · rcases q with _ | q2 <;> rfl

theorem midOf_none_right (x : Option JsNum) : midOf x none = none := by
  rcases x with _ | q
  · rfl
  · rcases q with _ | q2 <;> rfl

theorem spreadOf_none_left (y : Option JsNum) : spreadOf none y = none := by
  rcases y with _ | q
  · rfl
  · rcases q with _ | q2 <;> rfl

theorem spreadOf_none_right (x : Option JsNum) : spreadOf x none = none := by
  rcases x with _ | q
  · rfl
  · rcases q with _ | q2 <;> rfl

theorem spreadBpsOf_none_left (y : Option ℚ) : spreadBpsOf none y = none := by
  rcases y with _ | q <;> rfl

theorem midOf_spreadOf_falsy (x y : Option JsNum)
    (h : x = some none ∨ x = some (some 0) ∨
      y = some none ∨ y = some (some 0)) :
    midOf x y = none ∧ spreadOf x y = none := by
  rcases x with _ | (_ | qx) <;> rcases y with _ | (_ | qy) <;>
    simp_all [midOf, spreadOf]

/-- C2 (amended): midPrice and spread are present exactly when both
sides are non-empty and both best prices are truthy (finite and
non-zero): an empty side, a `NaN` best price, or a best price of 0
makes all three derived metrics absent; when present, midPrice is
(bestBid + bestAsk) / 2 and spread is bestAsk − bestBid, where
bestBid/bestAsk really are the maximal bid price and minimal ask
price; a crossed book yields and surfaces the negative spread;
spreadBps is present only when additionally spread and midPrice are
non-zero (it is absent at spread 0 or midPrice 0, because
`midPrice && spread` is falsy), and then equals
spread / midPrice × 10000 rounded to two decimal places. -/
theorem C2_snapshot_metrics (st : BookState) (depth : Option ℕ) :
    ((st.bids = [] ∨ st.asks = []) →
      (getSnapshot st depth).midPrice = none ∧
      (getSnapshot st depth).spread = none ∧
      (getSnapshot st depth).spreadBps = none) ∧
    (∀ (lb la : InternalLevel),
      (sortBids st.bids).head? = some lb →
      (sortAsks st.asks).head? = some la →
      (lb.price = none ∨ lb.price = some 0 ∨
        la.price = none ∨ la.price = some 0) →
      (getSnapshot st depth).midPrice = none ∧
      (getSnapshot st depth).spread = none ∧
      (getSnapshot st depth).spreadBps = none) ∧
    (∀ (lb la : InternalLevel) (bb ba : ℚ),
      (sortBids st.bids).head? = some lb → lb.price = some bb →
      (sortAsks st.asks).head? = some la → la.price = some ba →
      ((∀ p ∈ st.bids, (p.2.price).isSome = true) →
        lb ∈ mapValues st.bids ∧
        (∀ l ∈ mapValues st.bids, ∀ q : ℚ, l.price = some q → q ≤ bb)) ∧
      ((∀ p ∈ st.asks, (p.2.price).isSome = true) →
        la ∈ mapValues st.asks ∧
        (∀ l ∈ mapValues st.asks, ∀ q : ℚ, l.price = some q → ba ≤ q)) ∧
      (bb ≠ 0 → ba ≠ 0 →
        (getSnapshot st depth).midPrice = some ((bb + ba) / 2) ∧
        (getSnapshot st depth).spread = some (ba - bb) ∧
        (ba < bb → ba - bb < 0) ∧
        (ba - bb = 0 ∨ bb + ba = 0 →
          (getSnapshot st depth).spreadBps = none) ∧
        (ba - bb ≠ 0 → bb + ba ≠ 0 →
          (getSnapshot st depth).spreadBps
            = some (toFixed2 ((ba - bb) / ((bb + ba) / 2) * 10000))))) := by
  refine ⟨?_, ?_, ?_⟩
  · intro he
    rcases he with he | he
    · have hsb : sortBids st.bids = [] := by
        rw [he]; rfl
      simp [getSnapshot, hsb, bestOf, midOf_none_left, spreadOf_none_left,
        spreadBpsOf_none_left]
    · have hsa : sortAsks st.asks = [] := by
        rw [he]; rfl
      simp [getSnapshot, hsa, bestOf, midOf_none_right, spreadOf_none_right,
        spreadBpsOf_none_left]
  · intro lb la hb ha hfalsy
    have hbest1 : bestOf (sortBids st.bids) = some lb.price := by
      simp [bestOf, hb]
    have hbest2 : bestOf (sortAsks st.asks) = some la.price := by
      simp [bestOf, ha]
    have hfx : some lb.price = some none ∨ some lb.price = some (some 0) ∨
        some la.price = some none ∨ some la.price = some (some 0) := by
      rcases hfalsy with h | h | h | h <;> simp [h]
    obtain ⟨hmid, hspr⟩ :=
      midOf_spreadOf_falsy (some lb.price) (some la.price) hfx
    refine ⟨?_, ?_, ?_⟩
    · show midOf (bestOf (sortBids st.bids)) (bestOf (sortAsks st.asks)) = none
      rw [hbest1, hbest2]
      exact hmid
    · show spreadOf (bestOf (sortBids st.bids)) (bestOf (sortAsks st.asks))
        = none
      rw [hbest1, hbest2]
      exact hspr
    · show spreadBpsOf
        (midOf (bestOf (sortBids st.bids)) (bestOf (sortAsks st.asks)))
        (spreadOf (bestOf (sortBids st.bids)) (bestOf (sortAsks st.asks)))
        = none
      rw [hbest1, hbest2, hmid]
      exact spreadBpsOf_none_left _
  · intro lb la bb ba hb hlb ha hla
    refine ⟨?_, ?_, ?_⟩
    · intro hbfin
      obtain ⟨hmem, hmax⟩ := head_sortBids_max hbfin hb
      exact ⟨hmem, fun l hl q hq => hmax l hl q bb hq hlb⟩
    · intro hafin
      obtain ⟨hamem, hmin⟩ := head_sortAsks_min hafin ha
      exact ⟨hamem, fun l hl q hq => hmin l hl q ba hq hla⟩
    · intro hbb hba
      have hbest1 : bestOf (sortBids st.bids) = some (some bb) := by
        simp [bestOf, hb, hlb]
      have hbest2 : bestOf (sortAsks st.asks) = some (some ba) := by
        simp [bestOf, ha, hla]
      have hcond : ¬(bb = 0 ∨ ba = 0) := not_or.mpr ⟨hbb, hba⟩
      have hmid : midOf (bestOf (sortBids st.bids)) (bestOf (sortAsks st.asks))
          = some ((bb + ba) / 2) := by
        rw [hbest1, hbest2]
        simp [midOf, hcond]
      have hspr : spreadOf (bestOf (sortBids st.bids))
          (bestOf (sortAsks st.asks)) = some (ba - bb) := by
        rw [hbest1, hbest2]
        simp [spreadOf, hcond]
      refine ⟨by simp [getSnapshot, hmid], by simp [getSnapshot, hspr],
        fun h => by linarith, ?_, ?_⟩
      · intro hzero
        have hnone : spreadBpsOf (some ((bb + ba) / 2)) (some (ba - bb))
            = none := by
          rcases hzero with h0 | h0
          · simp [spreadBpsOf, h0]
          · have hm0 : (bb + ba) / 2 = 0 := by
              rw [h0]
              norm_num
            simp [spreadBpsOf, hm0]
        simp [getSnapshot, hmid, hspr, hnone]
      · intro hs hm
        have hm2 : (bb + ba) / 2 ≠ 0 := div_ne_zero hm two_ne_zero
        have hbps : spreadBpsOf (some ((bb + ba) / 2)) (some (ba - bb))
            = some (toFixed2 ((ba - bb) / ((bb + ba) / 2) * 10000)) := by
          simp [spreadBpsOf, hm2, hs]
        simp [getSnapshot, hmid, hspr, hbps]

/-- Checkpoint fixture with equal best bid and best ask. -/
def cpEqPx : OrderBook :=
  { coin := "BTC", timestamp := "t0",
    bids := [{ px := "100", sz := "2", n := 1 }],
    asks := [{ px := "100", sz := "3", n := 1 }] }

/-- C2 counterexample: with best bid and best ask both 100, both sides
are non-empty and midPrice and spread are present, yet spreadBps is
absent because spread is 0 and `midPrice && spread` is falsy — refuting
"spreadBps is present whenever both midPrice and spread are
present". -/
theorem C2_counterexample :
    (getSnapshot (initState cpEqPx) none).midPrice = some 100 ∧
    (getSnapshot (initState cpEqPx) none).spread = some 0 ∧
    (getSnapshot (initState cpEqPx) none).spreadBps = none := by
  have h100 : parseFloat "100" = some 100 := by decide
  have hbids : (initState cpEqPx).bids
      = [(some 100, { price := some 100, size := some 2, orders := 1 })] := by
    decide
  have hasks : (initState cpEqPx).asks
      = [(some 100, { price := some 100, size := some 3, orders := 1 })] := by
    decide
  refine ⟨?_, ?_, ?_⟩ <;>
    simp [getSnapshot, hbids, hasks, sortBids, sortAsks, mapValues, jsSort,
      insertOrd, bestOf, midOf, spreadOf, spreadBpsOf, mkLevel, h100]

/-- Crossed-book checkpoint fixture: best bid 101, best ask 100. -/
def cpCross : OrderBook :=
  { coin := "BTC", timestamp := "t0",
    bids := [{ px := "101", sz := "2", n := 1 }],
    asks := [{ px := "100", sz := "3", n := 1 }] }

/-- Checkpoint fixture whose best bid price is 0 (falsy). -/
def cpZeroBid : OrderBook :=
  { coin := "BTC", timestamp := "t0",
    bids := [{ px := "0", sz := "2", n := 1 }],
    asks := [{ px := "100", sz := "3", n := 1 }] }

/-- Checkpoint fixture whose best bid price is `NaN` (falsy). -/
def cpNanBid : OrderBook :=
  { coin := "BTC", timestamp := "t0",
    bids := [{ px := "x", sz := "2", n := 1 }],
    asks := [{ px := "100", sz := "3", n := 1 }] }

/-- C2 witness: the metric formulas applied to a crossed book (negative
spread and negative-quotient spreadBps surfaced, best bid the maximal
price), the absence direction at a zero best price and at a `NaN` best
price with both sides non-empty, and the spreadBps absence at zero
spread. -/
theorem C2_witness :
    (getSnapshot (initState cpCross) none).midPrice
      = some (((101 : ℚ) + 100) / 2) ∧
    (getSnapshot (initState cpCross) none).spread
      = some ((100 : ℚ) - 101) ∧
    ((100 : ℚ) - 101 < 0) ∧
    (getSnapshot (initState cpCross) none).spreadBps
      = some (toFixed2 (((100 : ℚ) - 101) / (((101 : ℚ) + 100) / 2) * 10000)) ∧
    ({ price := some 101, size := some 2, orders := 1 } : InternalLevel)
      ∈ mapValues (initState cpCross).bids ∧
    (getSnapshot (initState cpZeroBid) none).midPrice = none ∧
    (getSnapshot (initState cpNanBid) none).spread = none ∧
    (getSnapshot (initState cpEqPx) none).spreadBps = none := by
  have h := (C2_snapshot_metrics (initState cpCross) none).2.2
    { price := some 101, size := some 2, orders := 1 }
    { price := some 100, size := some 3, orders := 1 }
    101 100 (by decide) rfl (by decide) rfl
  have h2 := h.2.2 (by norm_num) (by norm_num)
  have hmax := h.1 (by decide)
  have hzero := ((C2_snapshot_metrics (initState cpZeroBid) none).2.1
    { price := some 0, size := some 2, orders := 1 }
    { price := some 100, size := some 3, orders := 1 }
    (by decide) (by decide) (Or.inr (Or.inl rfl))).1
  have hnan := ((C2_snapshot_metrics (initState cpNanBid) none).2.1
    { price := none, size := some 2, orders := 1 }
    { price := some 100, size := some 3, orders := 1 }
    (by decide) (by decide) (Or.inl rfl)).2.1
  have heq := (C2_snapshot_metrics (initState cpEqPx) none).2.2
    { price := some 100, size := some 2, orders := 1 }
    { price := some 100, size := some 3, orders := 1 }
    100 100 (by decide) rfl (by decide) rfl
  have heqbps := (heq.2.2 (by norm_num) (by norm_num)).2.2.2.1
    (Or.inl (by norm_num))
  exact ⟨h2.1, h2.2.1, h2.2.2.1 (by norm_num),
    h2.2.2.2.2 (by norm_num) (by norm_num), hmax.1, hzero, hnan, heqbps⟩

/-! Claim C6. -/

/-- Strict descending order by price on rendered levels. -/
def pxGt (a b : OutLevel) : Prop :=
  ∃ qa qb : ℚ, a.px = some qa ∧ b.px = some qb ∧ qb < qa

/-- Strict ascending order by price on rendered levels. -/
def pxLt (a b : OutLevel) : Prop :=
  ∃ qa qb : ℚ, a.px = some qa ∧ b.px = some qb ∧ qa < qb

theorem applyDepth_sublist (depth : Option ℕ) (l : List α) :
    (applyDepth depth l).Sublist l := by
  cases depth with
  | none => exact List.Sublist.refl l
  | some d =>
      simp only [applyDepth]
      split
      · exact List.Sublist.refl l
      · exact List.take_sublist d l

theorem nodup_px_of_pairwise_pxGt {l : List OutLevel} (h : l.Pairwise pxGt) :
    (l.map OutLevel.px).Nodup := by
  refine List.pairwise_map.mpr (h.imp ?_)
  rintro a b ⟨qa, qb, ha, hb, hlt⟩
  rw [ha, hb]
  intro he
  injection he with he2
  exact ne_of_gt hlt he2

theorem nodup_px_of_pairwise_pxLt {l : List OutLevel} (h : l.Pairwise pxLt) :
    (l.map OutLevel.px).Nodup := by
  refine List.pairwise_map.mpr (h.imp ?_)
  rintro a b ⟨qa, qb, ha, hb, hlt⟩
  rw [ha, hb]
  intro he
  injection he with he2
  exact ne_of_lt hlt he2

/-- Rendered levels of a snapshot of a well-formed state are strictly
ordered per side, with no duplicate price. -/
theorem snapshot_strict_of_wf (st : BookState) (depth : Option ℕ)
    (hbfin : ∀ p ∈ st.bids, (p.2.price).isSome = true)
    (hafin : ∀ p ∈ st.asks, (p.2.price).isSome = true)
    (hbkey : ∀ p ∈ st.bids, p.2.price = p.1)
    (hakey : ∀ p ∈ st.asks, p.2.price = p.1)
    (hbnd : (st.bids.map Prod.fst).Nodup)
    (hand : (st.asks.map Prod.fst).Nodup) :
    (getSnapshot st depth).bids.Pairwise pxGt ∧
    (getSnapshot st depth).asks.Pairwise pxLt ∧
    ((getSnapshot st depth).bids.map OutLevel.px).Nodup ∧
    ((getSnapshot st depth).asks.map OutLevel.px).Nodup := by
  have hbstrict := sortBids_strict hbfin (pricesNodup_of_keys hbnd hbkey)
  have hastrict := sortAsks_strict hafin (pricesNodup_of_keys hand hakey)
  have hb2 : (getSnapshot st depth).bids.Pairwise pxGt := by
    show ((applyDepth depth (sortBids st.bids)).map toLevel).Pairwise pxGt
    refine List.pairwise_map.mpr ?_
    refine (List.Pairwise.sublist (applyDepth_sublist depth _) hbstrict).imp ?_
    intro a b h
    exact h
  have ha2 : (getSnapshot st depth).asks.Pairwise pxLt := by
    show ((applyDepth depth (sortAsks st.asks)).map toLevel).Pairwise pxLt
    refine List.pairwise_map.mpr ?_
    refine (List.Pairwise.sublist (applyDepth_sublist depth _) hastrict).imp ?_
    intro a b h
    exact h
  exact ⟨hb2, ha2, nodup_px_of_pairwise_pxGt hb2, nodup_px_of_pairwise_pxLt ha2⟩

/-- C6: every snapshot of a well-formed state (finite prices, price
equal to its key, no duplicate keys per side — invariants that both
`initialize` and `applyDelta` maintain) has strictly descending bid
prices and strictly ascending ask prices with no duplicate; and right
after `initialize` on a checkpoint with distinct finite parsed bid
prices and distinct finite parsed ask prices, the snapshot has exactly
as many rendered levels per side as the checkpoint, in strict order. -/
theorem C6_snapshot_strict_order :
    (∀ (st : BookState) (depth : Option ℕ),
      (∀ p ∈ st.bids, (p.2.price).isSome = true) →
      (∀ p ∈ st.asks, (p.2.price).isSome = true) →
      (∀ p ∈ st.bids, p.2.price = p.1) →
      (∀ p ∈ st.asks, p.2.price = p.1) →
      (st.bids.map Prod.fst).Nodup →
      (st.asks.map Prod.fst).Nodup →
      (getSnapshot st depth).bids.Pairwise pxGt ∧
      (getSnapshot st depth).asks.Pairwise pxLt ∧
      ((getSnapshot st depth).bids.map OutLevel.px).Nodup ∧
      ((getSnapshot st depth).asks.map OutLevel.px).Nodup) ∧
    (∀ cp : OrderBook,
      (cp.bids.map (fun l => parseFloat l.px)).Nodup →
      (cp.asks.map (fun l => parseFloat l.px)).Nodup →
      (∀ l ∈ cp.bids, (parseFloat l.px).isSome = true) →
      (∀ l ∈ cp.asks, (parseFloat l.px).isSome = true) →
      (getSnapshot (initState cp) none).bids.length = cp.bids.length ∧
      (getSnapshot (initState cp) none).asks.length = cp.asks.length ∧
      (getSnapshot (initState cp) none).bids.Pairwise pxGt ∧
      (getSnapshot (initState cp) none).asks.Pairwise pxLt) := by
  constructor
  · exact snapshot_strict_of_wf
  · intro cp hbnd hand hbfin hafin
    have hbfin2 : ∀ p ∈ (initState cp).bids, (p.2.price).isSome = true := by
      intro p hp
      rcases mem_loadSide hp with ⟨l, hl, rfl⟩
      exact hbfin l hl
    have hafin2 : ∀ p ∈ (initState cp).asks, (p.2.price).isSome = true := by
      intro p hp
      rcases mem_loadSide hp with ⟨l, hl, rfl⟩
      exact hafin l hl
    have hstrict := snapshot_strict_of_wf (initState cp) none hbfin2 hafin2
      (fun _ hp => loadSide_keyed hp) (fun _ hp => loadSide_keyed hp)
      (keysNodup_loadSide cp.bids) (keysNodup_loadSide cp.asks)
    have hlen1 : (getSnapshot (initState cp) none).bids.length = cp.bids.length := by
      show ((applyDepth none (sortBids (initState cp).bids)).map toLevel).length = _
      simp only [applyDepth, List.length_map]
      rw [sortBids, length_jsSort]
      simp only [mapValues, List.length_map]
      exact loadSide_length hbnd
    have hlen2 : (getSnapshot (initState cp) none).asks.length = cp.asks.length := by
      show ((applyDepth none (sortAsks (initState cp).asks)).map toLevel).length = _
      simp only [applyDepth, List.length_map]
      rw [sortAsks, length_jsSort]
      simp only [mapValues, List.length_map]
      exact loadSide_length hand
    exact ⟨hlen1, hlen2, hstrict.1, hstrict.2.1⟩

/-- Checkpoint fixture with two distinct levels per side. -/
def cpTwo : OrderBook :=
  { coin := "ETH", timestamp := "t1",
    bids := [{ px := "98", sz := "1", n := 1 }, { px := "99", sz := "2", n := 1 }],
    asks := [{ px := "102", sz := "1", n := 1 }, { px := "101", sz := "2", n := 1 }] }

/-- C6 witness: the ordering and counting facts applied to a concrete
two-level checkpoint. -/
theorem C6_witness :
    (getSnapshot (initState cpTwo) none).bids.length = 2 ∧
    (getSnapshot (initState cpTwo) none).asks.length = 2 ∧
    (getSnapshot (initState cpTwo) none).bids.Pairwise pxGt ∧
    (getSnapshot (initState cpTwo) none).asks.Pairwise pxLt := by
  have h := C6_snapshot_strict_order.2 cpTwo (by decide) (by decide)
    (by decide) (by decide)
  exact ⟨h.1.trans (by decide), h.2.1.trans (by decide), h.2.2.1, h.2.2.2⟩

/-! Claim C8. -/

theorem take_strict_dominates {R : InternalLevel → InternalLevel → Prop}
    {s : List InternalLevel} (hpw : s.Pairwise R) (d : ℕ)
    {x : InternalLevel} (hx : x ∈ s.take d) {y : InternalLevel} (hy : y ∈ s)
    (hnot : y ∉ s.take d) : R x y := by
  rw [← List.take_append_drop d s] at hpw hy
  have hsplit := List.pairwise_append.mp hpw
  have hyd : y ∈ s.drop d := by
    rcases List.mem_append.mp hy with h | h
    · exact absurd h hnot
    · exact h
  exact hsplit.2.2 x hx y hyd

/-- Checkpoint fixture with a single bid level. -/
def cpOneBid : OrderBook :=
  { coin := "BTC", timestamp := "t0",
    bids := [{ px := "100", sz := "1", n := 1 }], asks := [] }

/-- C8 counterexample: with one resident bid level,
`getSnapshot(depth := 0)` returns 1 level rather than the 0 levels the
claim requires for `maxDepth = 0`: a depth of 0 is falsy in
`depth ? sorted.slice(0, depth) : sorted` and truncates nothing. -/
theorem C8_counterexample :
    (getSnapshot (initState cpOneBid) (some 0)).bids.length = 1 := by decide

/-- C8 (amended): for a given depth d ≥ 1, `getSnapshot` keeps exactly
the first d entries per side after sorting, i.e. the best levels: the
kept levels are resident levels, `min d n` many, and each kept level
strictly dominates every omitted resident level (strictly higher price
on the bid side, strictly lower on the ask side); a given depth of 0,
however, is falsy in JavaScript, so `getSnapshot(0)` truncates nothing
and equals `getSnapshot()`. -/
theorem C8_depth_truncates_to_best :
    (∀ (st : BookState) (d : ℕ), 1 ≤ d →
      (∀ p ∈ st.bids, (p.2.price).isSome = true) →
      (∀ p ∈ st.asks, (p.2.price).isSome = true) →
      (∀ p ∈ st.bids, p.2.price = p.1) →
      (∀ p ∈ st.asks, p.2.price = p.1) →
      (st.bids.map Prod.fst).Nodup →
      (st.asks.map Prod.fst).Nodup →
      (getSnapshot st (some d)).bids.length = min d st.bids.length ∧
      (getSnapshot st (some d)).asks.length = min d st.asks.length ∧
      (∀ x ∈ (getSnapshot st (some d)).bids,
        ∃ l ∈ mapValues st.bids, toLevel l = x) ∧
      (∀ x ∈ (getSnapshot st (some d)).asks,
        ∃ l ∈ mapValues st.asks, toLevel l = x) ∧
      (∀ x ∈ (getSnapshot st (some d)).bids, ∀ l ∈ mapValues st.bids,
        toLevel l ∉ (getSnapshot st (some d)).bids →
        ∃ qx ql : ℚ, x.px = some qx ∧ l.price = some ql ∧ ql < qx) ∧
      (∀ x ∈ (getSnapshot st (some d)).asks, ∀ l ∈ mapValues st.asks,
        toLevel l ∉ (getSnapshot st (some d)).asks →
        ∃ qx ql : ℚ, x.px = some qx ∧ l.price = some ql ∧ qx < ql)) ∧
    (∀ st : BookState, getSnapshot st (some 0) = getSnapshot st none) := by
  constructor
  · intro st d hd hbfin hafin hbkey hakey hbnd hand
    have hdz : ¬(d = 0) := by omega
    have hkb : (getSnapshot st (some d)).bids
        = ((sortBids st.bids).take d).map toLevel := by
      show ((applyDepth (some d) (sortBids st.bids)).map toLevel) = _
      simp [applyDepth, hdz]
    have hka : (getSnapshot st (some d)).asks
        = ((sortAsks st.asks).take d).map toLevel := by
      show ((applyDepth (some d) (sortAsks st.asks)).map toLevel) = _
      simp [applyDepth, hdz]
    have hbstrict := sortBids_strict hbfin (pricesNodup_of_keys hbnd hbkey)
    have hastrict := sortAsks_strict hafin (pricesNodup_of_keys hand hakey)
    refine ⟨?_, ?_, ?_, ?_, ?_, ?_⟩
    · rw [hkb]
      simp only [List.length_map, List.length_take]
      rw [sortBids, length_jsSort]
      simp [mapValues]
    · rw [hka]
      simp only [List.length_map, List.length_take]
      rw [sortAsks, length_jsSort]
      simp [mapValues]
    · intro x hx
      rw [hkb] at hx
      rcases List.mem_map.mp hx with ⟨lx, hlx, rfl⟩
      have hmem : lx ∈ sortBids st.bids := (List.take_sublist d _).mem hlx
      exact ⟨lx, by rw [sortBids] at hmem; exact mem_jsSort.mp hmem, rfl⟩
    · intro x hx
      rw [hka] at hx
      rcases List.mem_map.mp hx with ⟨lx, hlx, rfl⟩
      have hmem : lx ∈ sortAsks st.asks := (List.take_sublist d _).mem hlx
      exact ⟨lx, by rw [sortAsks] at hmem; exact mem_jsSort.mp hmem, rfl⟩
    · intro x hx l hl hnot
      rw [hkb] at hx hnot
      rcases List.mem_map.mp hx with ⟨lx, hlx, rfl⟩
      have hls : l ∈ sortBids st.bids := by
        rw [sortBids]
        exact mem_jsSort.mpr hl
      have hlnot : l ∉ (sortBids st.bids).take d := fun h =>
        hnot (List.mem_map_of_mem toLevel h)
      rcases take_strict_dominates hbstrict d hlx hls hlnot with
        ⟨qx, ql, hqx, hql, hlt⟩
      exact ⟨qx, ql, hqx, hql, hlt⟩
    · intro x hx l hl hnot
      rw [hka] at hx hnot
      rcases List.mem_map.mp hx with ⟨lx, hlx, rfl⟩
      have hls : l ∈ sortAsks st.asks := by
        rw [sortAsks]
        exact mem_jsSort.mpr hl
      have hlnot : l ∉ (sortAsks st.asks).take d := fun h =>
        hnot (List.mem_map_of_mem toLevel h)
      rcases take_strict_dominates hastrict d hlx hls hlnot with
        ⟨qx, ql, hqx, hql, hlt⟩
      exact ⟨qx, ql, hqx, hql, hlt⟩
  · intro st
    rfl

/-- Checkpoint fixture with ten distinct bid levels. -/
def cpTen : OrderBook :=
  { coin := "BTC", timestamp := "t2",
    bids := [{ px := "1", sz := "1", n := 1 }, { px := "2", sz := "1", n := 1 },
      { px := "3", sz := "1", n := 1 }, { px := "4", sz := "1", n := 1 },
      { px := "5", sz := "1", n := 1 }, { px := "6", sz := "1", n := 1 },
      { px := "7", sz := "1", n := 1 }, { px := "8", sz := "1", n := 1 },
      { px := "9", sz := "1", n := 1 }, { px := "10", sz := "1", n := 1 }],
    asks := [] }

/-- C8 witness: depth 3 on a ten-level bid side keeps three resident
levels. -/
theorem C8_witness :
    (getSnapshot (initState cpTen) (some 3)).bids.length
      = min 3 ((initState cpTen).bids.length) ∧
    (∀ x ∈ (getSnapshot (initState cpTen) (some 3)).bids,
      ∃ l ∈ mapValues (initState cpTen).bids, toLevel l = x) := by
  have h := C8_depth_truncates_to_best.1 (initState cpTen) 3 (by omega)
    (by decide) (by decide) (by decide) (by decide) (by decide) (by decide)
  exact ⟨h.1, h.2.2.1⟩

end OBR
